import Mathlib

/-!
Shallow embedding of `src/view_dep.py` (view-dependency resolution and
drop/execute/recreate orchestration for Redshift/Postgres), together with
proofs about the claims of the specification.

The catalog (`pg_class`/`pg_depend`/`pg_views` joins) is modelled as an
abstract list of dependency records; the SQL `base_query` of `view_deps`
is embedded as `queryDeps`.  The Python generator `recurse` is embedded as
an eager list of yielded items, including the `None` yielded by the bare
`yield` in the `else` branch and the `TypeError` that `list(a)` raises in
the enclosing frame when the inner generator yields that `None`.
-/

namespace ViewDep

/-- A dependent-view record as selected by the SQL of `view_deps`:
`schemaname, viewname, viewowner, definition, depth`. -/
structure Desc where
  schema : String
  name : String
  owner : String
  definition : String
  depth : Nat
  deriving DecidableEq, Repr

/-- One dependency record of the abstract catalog: the joined
`pg_depend`/`pg_class`/`pg_views` rows say that the view
`(childSchema, childName)` (owner `childOwner`, body `childDef`)
structurally depends on the relation `(parentSchema, parentName)`
(deptype `i`, relkind `v` are part of this abstract record). -/
structure DepEdge where
  parentSchema : String
  parentName : String
  childSchema : String
  childName : String
  childOwner : String
  childDef : String
  deriving DecidableEq, Repr

/-- The abstract catalog consumed by the resolver. -/
abbrev Catalog := List DepEdge

/-- Models the SQL `lower()` function (`String.toLower` of the Python
catalog engine), written over the character list so that it evaluates. -/
def lowerStr (s : String) : String := String.mk (s.data.map Char.toLower)

/-- The `lower(n_p.nspname) = lower('{schema}') AND lower(c_p.relname) =
lower('{unqual_table}')` condition of the base query. -/
def matchesParent (schema unqual : String) (e : DepEdge) : Bool :=
  lowerStr e.parentSchema == lowerStr schema && lowerStr e.parentName == lowerStr unqual

/-- The `NOT (lower(pgv.schemaname) = lower('{schema}') AND
lower(pgv.viewname) = lower('{unqual_table}'))` self-exclusion of the
base query. -/
def notSelf (schema unqual : String) (e : DepEdge) : Bool :=
  !(lowerStr e.childSchema == lowerStr schema && lowerStr e.childName == lowerStr unqual)

/-- Generic keep-first-occurrence deduplication by a key, with an
accumulator of already-seen keys. -/
def dedupBy {α κ : Type} [BEq κ] (key : α → κ) : List κ → List α → List α
  | _, [] => []
  | seen, a :: rest =>
    if seen.contains (key a) then dedupBy key seen rest
    else a :: dedupBy key (key a :: seen) rest

/-- Models the `base_query` of `view_deps` run against the abstract
catalog: all dependent-view rows for the relation `(schema, unqual)`,
with the current recursion depth selected as the `depth` column, the
case-insensitive parent match, the case-insensitive self-exclusion, and
`SELECT DISTINCT` (keep-first) on the resulting rows. -/
def queryDeps (cat : Catalog) (schema unqual : String) (depth : Nat) : List Desc :=
  dedupBy (fun d => d) []
    ((cat.filter (fun e => matchesParent schema unqual e && notSelf schema unqual e)).map
      (fun e => ⟨e.childSchema, e.childName, e.childOwner, e.childDef, depth⟩))

/-- One element of the stream produced by consuming the `recurse`
generator: a yielded row, the `None` yielded by the bare `yield` of the
`else` branch, or the `TypeError` raised by `list(a)` when the inner
generator yielded `None` (the exception terminates the stream). -/
inductive Item where
  | row (d : Desc)
  | pyNone
  | tyErr
  deriving DecidableEq, Repr

/-- Models `yield list(a)` in the enclosing frame for an item `a` coming
from the inner generator: a row is re-yielded, `None` makes `list(a)`
raise `TypeError`, and an exception already propagating keeps
propagating. -/
def wrapYield : Item → Item
  | Item.row d => Item.row d
  | Item.pyNone => Item.tyErr
  | Item.tyErr => Item.tyErr

/-- An uncaught exception terminates a Python generator: the consumer
sees all items before the first `TypeError` and then the exception,
nothing afterwards. -/
def cutAtErr : List Item → List Item
  | [] => []
  | Item.tyErr :: _ => [Item.tyErr]
  | i :: rest => i :: cutAtErr rest

/-- Models the inner generator `recurse(curs, schema, unqual_table,
depth, maxdepth)` of `view_deps`, consumed eagerly.  The Python guard
`depth+1 < maxdepth` (with the recursive call at `depth+1` and `maxdepth`
fixed) is encoded structurally through `gas = maxdepth - depth`: the
guard `depth+1 < maxdepth` is exactly `2 ≤ gas`, and the recursive call
at `depth+1` gets `gas - 1`.  Entered from `view_deps` with `depth = 0`
and `gas = maxdepth`.  In the guarded branch each fetched row is yielded
and then the inner recursion's items are re-yielded through `list(a)`
(`wrapYield`); in the `else` branch the bare `yield` yields `None`. -/
def recurse (cat : Catalog) (schema unqual : String) (depth : Nat) : Nat → List Item
  | 0 => [Item.pyNone]
  | 1 => [Item.pyNone]
  | g + 2 =>
    (queryDeps cat schema unqual depth).flatMap (fun r =>
      Item.row r :: (recurse cat r.schema r.name (depth + 1) (g + 1)).map wrapYield)

/-- Models Python `str.split('.')`: splits a character list at every
`'.'`, keeping empty segments, never returning an empty list. -/
def splitDots : List Char → List (List Char)
  | [] => [[]]
  | c :: cs =>
    if c = '.' then [] :: splitDots cs
    else
      match splitDots cs with
      | [] => [[c]]
      | p :: ps => (c :: p) :: ps

/-- Models `view_deps(conn, table, maxdepth)`: the table name is split on
`'.'`, taking parts `[0]` and `[1]` (an `IndexError` is raised when there
is no `'.'`, before any catalog query), and the `recurse` generator is
returned; its consumption yields the item stream, truncated at the first
uncaught `TypeError`. -/
def view_deps (cat : Catalog) (table : String) (maxdepth : Nat) :
    Except Unit (List Item) :=
  match splitDots table.data with
  | schemaCs :: unqualCs :: _ =>
    Except.ok (cutAtErr (recurse cat (String.mk schemaCs) (String.mk unqualCs) 0 maxdepth))
  | _ => Except.error ()

/-- A statement issued through `cursor.execute` by
`drop_execute_recreate`, with the payloads the Python code formats in. -/
inductive Stmt where
  | drop (schema name : String)
  | raw (sql : String)
  | create (schema name defn : String)
  | alterOwner (schema name owner : String)
  deriving DecidableEq, Repr

/-- The exact statement strings `drop_execute_recreate` formats and
passes to `cursor.execute` (including the whitespace of the Python
triple-quoted templates). -/
def render : Stmt → String
  | Stmt.drop s n => "DROP VIEW " ++ s ++ "." ++ n ++ ";"
  | Stmt.raw q => q
  | Stmt.create s n d =>
    "\n      CREATE VIEW " ++ s ++ "." ++ n ++ " AS\n       " ++ d ++ " \n    "
  | Stmt.alterOwner s n o =>
    "\n      ALTER TABLE " ++ s ++ "." ++ n ++ " OWNER TO " ++ o ++ "\n    "

/-- Stable insertion into a descending-by-depth sorted list. -/
def insDesc (d : Desc) : List Desc → List Desc
  | [] => [d]
  | e :: es => if e.depth ≤ d.depth then d :: e :: es else e :: insDesc d es

/-- Models `df.sort_values('depth', ascending=False)`: a sort of the rows
by depth, descending (pandas leaves the order of ties unspecified; this
model picks the stable one). -/
def sortDesc : List Desc → List Desc
  | [] => []
  | d :: ds => insDesc d (sortDesc ds)

/-- Stable insertion into an ascending-by-depth sorted list. -/
def insAsc (d : Desc) : List Desc → List Desc
  | [] => [d]
  | e :: es => if d.depth ≤ e.depth then d :: e :: es else e :: insAsc d es

/-- Models `df.sort_values('depth', ascending=True)`. -/
def sortAsc : List Desc → List Desc
  | [] => []
  | d :: ds => insAsc d (sortAsc ds)

/-- The column subset `['schema', 'name', 'owner', 'definition']` that
`df.drop_duplicates` compares (exact equality, as pandas does). -/
def subsetKey (d : Desc) : String × String × String × String :=
  (d.schema, d.name, d.owner, d.definition)

/-- Models lines 119-120 of the source: sort by depth descending, then
`drop_duplicates(subset=['schema','name','owner','definition'],
keep='first')`. -/
def canonicalize (rows : List Desc) : List Desc :=
  dedupBy subsetKey [] (sortDesc rows)

/-- The final outcome of a `drop_execute_recreate` call: normal return,
or the Python exception that escaped (`IndexError` from the
dot-qualified-name split, `TypeError` from consuming the generator,
`ValueError` from assigning five column names to an empty DataFrame, or
the database error of the failing statement). -/
inductive Outcome where
  | ok
  | indexError
  | typeError
  | columnsError
  | execFailed (st : Stmt)
  deriving DecidableEq, Repr

/-- Observable behaviour of one `drop_execute_recreate` call: the
statements passed to `cursor.execute` in order (a failing statement is
the last one attempted) and the outcome. -/
structure Run where
  trace : List Stmt
  outcome : Outcome
  deriving DecidableEq, Repr

/-- Executes statements in order through the session; stops at (and
records) the first failing statement. -/
def execAll (ex : String → Bool) : List Stmt → List Stmt × Option Stmt
  | [] => ([], none)
  | s :: rest =>
    if ex (render s) then
      let r := execAll ex rest
      (s :: r.1, r.2)
    else ([s], some s)

/-- The `DROP VIEW` statement for one canonical-plan row (line 124). -/
def dropOf (d : Desc) : Stmt := Stmt.drop d.schema d.name

/-- The recreate-phase statements for one canonical-plan row: the
`CREATE VIEW` with the stored definition, then the `ALTER TABLE ... OWNER
TO` with the stored owner (lines 133-148). -/
def pairOf (d : Desc) : List Stmt :=
  [Stmt.create d.schema d.name d.definition, Stmt.alterOwner d.schema d.name d.owner]

/-- The mutation and recreate phases of `drop_execute_recreate`, after
the drop phase has executed the statements `t1`: run the caller's SQL,
then re-sort the plan ascending by depth and issue the create /
alter-owner pair of each row.  Any statement failure aborts the remainder
and propagates. -/
def afterDrops (ex : String → Bool) (t1 : List Stmt) (plan : List Desc) (sql : String) :
    Run :=
  if ex (render (Stmt.raw sql)) then
    match execAll ex ((sortAsc plan).flatMap pairOf) with
    | (t2, some st) => ⟨t1 ++ Stmt.raw sql :: t2, Outcome.execFailed st⟩
    | (t2, none) => ⟨t1 ++ Stmt.raw sql :: t2, Outcome.ok⟩
  else ⟨t1 ++ [Stmt.raw sql], Outcome.execFailed (Stmt.raw sql)⟩

/-- The three phases of `drop_execute_recreate` after the canonical plan
has been built: drop all plan rows in the (descending-depth) plan order,
then execute the caller's SQL and recreate (a failing drop aborts the
remainder and propagates). -/
def phaseRun (ex : String → Bool) (plan : List Desc) (sql : String) : Run :=
  match execAll ex (plan.map dropOf) with
  | (t1, some st) => ⟨t1, Outcome.execFailed st⟩
  | (t1, none) => afterDrops ex t1 plan sql

/-- The row items of a consumed stream (what `pd.DataFrame` receives as
list rows).  A top-level `None` cannot occur at the fixed `maxdepth = 10`
used by `drop_execute_recreate` (it would need `maxdepth ≤ 1`). -/
def rowsOf (items : List Item) : List Desc :=
  items.filterMap (fun i => match i with
    | Item.row d => some d
    | _ => none)

/-- The part of `drop_execute_recreate` that runs once the item stream
has been materialized: a `TypeError` of the stream propagates, an empty
row set fails the five-column assignment (`ValueError`), otherwise the
rows are canonicalized and the three phases run. -/
def runFromItems (ex : String → Bool) (items : List Item) (sql : String) : Run :=
  if items.contains Item.tyErr then ⟨[], Outcome.typeError⟩
  else if (rowsOf items).isEmpty then ⟨[], Outcome.columnsError⟩
  else phaseRun ex (canonicalize (rowsOf items)) sql

/-- Models `drop_execute_recreate(conn, table, sql)`: resolve the
dependency set (`view_deps` default `maxdepth = 10`), materialize it with
`list(...)` (an `IndexError` of the split or a `TypeError` of a truncated
branch propagates here), build the DataFrame and assign the five column
names (`ValueError` when there are no rows), canonicalize, then run the
drop / mutate / recreate phases. -/
def drop_execute_recreate (cat : Catalog) (ex : String → Bool) (table sql : String) :
    Run :=
  match view_deps cat table 10 with
  | Except.error _ => ⟨[], Outcome.indexError⟩
  | Except.ok items => runFromItems ex items sql

/-- The dependency rows `drop_execute_recreate` would materialize for a
given catalog and table (empty when resolution raises). -/
def resolvedRows (cat : Catalog) (table : String) : List Desc :=
  match view_deps cat table 10 with
  | Except.error _ => []
  | Except.ok items => rowsOf items

/-- The canonical plan (drop order) of one `drop_execute_recreate` call. -/
def thePlan (cat : Catalog) (table : String) : List Desc :=
  canonicalize (resolvedRows cat table)

/-- The recreate-phase order of one `drop_execute_recreate` call. -/
def ascPlan (cat : Catalog) (table : String) : List Desc :=
  sortAsc (thePlan cat table)

/-- Whether a statement addresses the object `(s, n)`. -/
def touches (s n : String) : Stmt → Bool
  | Stmt.drop s' n' => s' == s && n' == n
  | Stmt.raw _ => false
  | Stmt.create s' n' _ => s' == s && n' == n
  | Stmt.alterOwner s' n' _ => s' == s && n' == n

/-- Database-side ownership semantics of one statement for the object
`(s, n)`: a drop removes it, a create makes it owned by the creating
session's default owner, an owner-restoration statement sets the given
owner; the opaque caller SQL is not interpreted. -/
def ownerStep (dflt s n : String) (acc : Option String) (st : Stmt) : Option String :=
  match st with
  | Stmt.drop s' n' => if s' == s && n' == n then none else acc
  | Stmt.raw _ => acc
  | Stmt.create s' n' _ => if s' == s && n' == n then some dflt else acc
  | Stmt.alterOwner s' n' o => if s' == s && n' == n then some o else acc

/-- The owner of object `(s, n)` after a statement trace has run against
a session whose default owner is `dflt` (`none` = object absent). -/
def finalOwner (dflt s n : String) (trace : List Stmt) : Option String :=
  trace.foldl (ownerStep dflt s n) none

/-- Case-sensitive identity equality of two descriptors. -/
def sameId (a b : Desc) : Bool := a.schema == b.schema && a.name == b.name

/-- Whether a statement is a `CREATE VIEW`. -/
def isCreate : Stmt → Bool
  | Stmt.create _ _ _ => true
  | _ => false

/-- The statements of a run that completed successfully (on a statement
failure the failing statement, last in the trace, is excluded). -/
def succStmts (r : Run) : List Stmt :=
  match r.outcome with
  | Outcome.execFailed _ => r.trace.dropLast
  | _ => r.trace

/-- How many objects a run successfully recreated. -/
def createCount (r : Run) : Nat := ((succStmts r).filter isCreate).length

/-- The synthetic graph of the spec: `target ← V1 ← V2` and
`target ← V3` (schema `s`, target relation `t`). -/
def chainCat : Catalog :=
  [⟨"s", "t", "s", "V1", "o1", "d1"⟩,
   ⟨"s", "t", "s", "V3", "o3", "d3"⟩,
   ⟨"s", "V1", "s", "V2", "o2", "d2"⟩]

/-- A diamond graph: `V2` is reachable at depth 1 via `V1` and at depth 2
via `target ← A ← B ← V2`. -/
def diamondCat : Catalog :=
  [⟨"s", "t", "s", "V1", "o1", "d1"⟩,
   ⟨"s", "t", "s", "A", "oa", "da"⟩,
   ⟨"s", "V1", "s", "V2", "o2", "d2"⟩,
   ⟨"s", "A", "s", "B", "ob", "db"⟩,
   ⟨"s", "B", "s", "V2", "o2", "d2"⟩]

/-- Catalog for the partial-recreate scenario: `target ← V1 ← V9`; the
recreate phase creates `V1` then `V9`. -/
def catA : Catalog :=
  [⟨"s", "t", "s", "V1", "o1", "d1"⟩,
   ⟨"s", "V1", "s", "V9", "o9", "d9"⟩]

/-- A larger catalog whose recreate phase creates `V1`, `V2`, then `V9`. -/
def catB : Catalog :=
  [⟨"s", "t", "s", "V1", "o1", "d1"⟩,
   ⟨"s", "t", "s", "V2", "ov", "dv"⟩,
   ⟨"s", "V1", "s", "V9", "o9", "d9"⟩]

/-- An executor on which exactly the `CREATE VIEW` of `V9` fails. -/
def failV9 : String → Bool := fun q => q != render (Stmt.create "s" "V9" "d9")

/-- An executor on which every statement succeeds. -/
def exOk : String → Bool := fun _ => true

theorem dedupBy_sublist {α κ : Type} [BEq κ] (key : α → κ) :
    ∀ (seen : List κ) (l : List α), List.Sublist (dedupBy key seen l) l := by
  intro seen l
  induction l generalizing seen with
  | nil => exact List.Sublist.refl []
  | cons a rest ih =>
    rw [dedupBy]
    split
    · exact List.Sublist.cons a (ih seen)
    · exact List.Sublist.cons₂ a (ih _)

theorem mem_dedupBy {α κ : Type} [BEq κ] {key : α → κ} {seen : List κ}
    {l : List α} {a : α} (h : a ∈ dedupBy key seen l) : a ∈ l :=
  (dedupBy_sublist key seen l).mem h

theorem mem_insDesc {x d : Desc} : ∀ {l : List Desc}, x ∈ insDesc d l → x = d ∨ x ∈ l := by
  intro l
  induction l with
  | nil => intro h; simpa [insDesc] using h
  | cons e es ih =>
    intro h
    rw [insDesc] at h
    split at h
    · simpa using h
    · rcases List.mem_cons.mp h with h1 | h2
      · exact Or.inr (by simp [h1])
      · rcases ih h2 with h3 | h4
        · exact Or.inl h3
        · exact Or.inr (List.mem_cons_of_mem _ h4)

theorem pairwise_insDesc {d : Desc} :
    ∀ {l : List Desc}, l.Pairwise (fun a b => b.depth ≤ a.depth) →
      (insDesc d l).Pairwise (fun a b => b.depth ≤ a.depth) := by
  intro l
  induction l with
  | nil => intro _; simp [insDesc]
  | cons e es ih =>
    intro h
    rcases List.pairwise_cons.mp h with ⟨he, hes⟩
    by_cases hc : e.depth ≤ d.depth
    · rw [insDesc, if_pos hc]
      refine List.pairwise_cons.mpr ⟨?_, h⟩
      intro x hx
      rcases List.mem_cons.mp hx with h1 | h2
      · rw [h1]; exact hc
      · exact le_trans (he x h2) hc
    · rw [insDesc, if_neg hc]
      refine List.pairwise_cons.mpr ⟨?_, ih hes⟩
      intro x hx
      rcases mem_insDesc hx with h1 | h2
      · rw [h1]; omega
      · exact he x h2

theorem sortDesc_sorted :
    ∀ (l : List Desc), (sortDesc l).Pairwise (fun a b => b.depth ≤ a.depth) := by
  intro l
  induction l with
  | nil => simp [sortDesc]
  | cons d ds ih => exact pairwise_insDesc ih

theorem mem_insAsc {x d : Desc} : ∀ {l : List Desc}, x ∈ insAsc d l → x = d ∨ x ∈ l := by
  intro l
  induction l with
  | nil => intro h; simpa [insAsc] using h
  | cons e es ih =>
    intro h
    rw [insAsc] at h
    split at h
    · simpa using h
    · rcases List.mem_cons.mp h with h1 | h2
      · exact Or.inr (by simp [h1])
      · rcases ih h2 with h3 | h4
        · exact Or.inl h3
        · exact Or.inr (List.mem_cons_of_mem _ h4)

theorem pairwise_insAsc {d : Desc} :
    ∀ {l : List Desc}, l.Pairwise (fun a b => a.depth ≤ b.depth) →
      (insAsc d l).Pairwise (fun a b => a.depth ≤ b.depth) := by
  intro l
  induction l with
  | nil => intro _; simp [insAsc]
  | cons e es ih =>
    intro h
    rcases List.pairwise_cons.mp h with ⟨he, hes⟩
    by_cases hc : d.depth ≤ e.depth
    · rw [insAsc, if_pos hc]
      refine List.pairwise_cons.mpr ⟨?_, h⟩
      intro x hx
      rcases List.mem_cons.mp hx with h1 | h2
      · rw [h1]; exact hc
      · exact le_trans hc (he x h2)
    · rw [insAsc, if_neg hc]
      refine List.pairwise_cons.mpr ⟨?_, ih hes⟩
      intro x hx
      rcases mem_insAsc hx with h1 | h2
      · rw [h1]; omega
      · exact he x h2

theorem sortAsc_sorted :
    ∀ (l : List Desc), (sortAsc l).Pairwise (fun a b => a.depth ≤ b.depth) := by
  intro l
  induction l with
  | nil => simp [sortAsc]
  | cons d ds ih => exact pairwise_insAsc ih

theorem canonicalize_sorted (rows : List Desc) :
    (canonicalize rows).Pairwise (fun a b => b.depth ≤ a.depth) :=
  (sortDesc_sorted rows).sublist (dedupBy_sublist subsetKey [] (sortDesc rows))

theorem execAll_none {ex : String → Bool} :
    ∀ {l t : List Stmt}, execAll ex l = (t, none) → t = l := by
  intro l
  induction l with
  | nil => intro t h; rw [execAll] at h; injection h with h1 _; exact h1.symm ▸ rfl
  | cons s rest ih =>
    intro t h
    rw [execAll] at h
    split at h
    · injection h with h1 h2
      have hrest : execAll ex rest = ((execAll ex rest).1, none) := by
        rw [← h2]
      rw [← h1, ih hrest]
    · injection h with _ h2
      exact absurd h2 (by simp)

theorem execAll_some_getLast {ex : String → Bool} :
    ∀ {l t : List Stmt} {st : Stmt}, execAll ex l = (t, some st) →
      t ≠ [] ∧ t.getLast? = some st := by
  intro l
  induction l with
  | nil => intro t st h; rw [execAll] at h; injection h with _ h2; exact absurd h2 (by simp)
  | cons s rest ih =>
    intro t st h
    rw [execAll] at h
    split at h
    · injection h with h1 h2
      have hrest : execAll ex rest = ((execAll ex rest).1, some st) := by
        rw [← h2]
      rcases ih hrest with ⟨hne, hlast⟩
      refine ⟨by rw [← h1]; simp, ?_⟩
      rw [← h1]
      rw [List.getLast?_cons]
      cases hh : (execAll ex rest).1 with
      | nil => exact absurd hh hne
      | cons a as =>
        rw [hh] at hlast
        simp [hh, hlast]
    · injection h with h1 h2
      injection h2 with h3
      rw [← h1, h3]
      exact ⟨by simp, by simp⟩



theorem splitDots_ne_nil : ∀ (l : List Char), splitDots l ≠ [] := by
  intro l
  cases l with
  | nil => simp [splitDots]
  | cons c cs =>
    rw [splitDots]
    by_cases hc : c = '.'
    · simp [hc]
    · rw [if_neg hc]
      cases h : splitDots cs <;> simp

theorem splitDots_no_dot : ∀ {l : List Char}, '.' ∉ l → splitDots l = [l] := by
  intro l
  induction l with
  | nil => intro _; rfl
  | cons c cs ih =>
    intro h
    have hc : c ≠ '.' := by
      intro hh
      exact h (by rw [hh]; exact List.mem_cons_self _ _)
    have hcs : '.' ∉ cs := fun hh => h (List.mem_cons_of_mem _ hh)
    rw [splitDots, if_neg hc, ih hcs]

theorem splitDots_append : ∀ (s : List Char), '.' ∉ s → ∀ (t : List Char),
    splitDots (s ++ '.' :: t) = s :: splitDots t := by
  intro s
  induction s with
  | nil =>
    intro _ t
    simp [splitDots]
  | cons c cs ih =>
    intro h t
    have hc : c ≠ '.' := by
      intro hh
      exact h (by rw [hh]; exact List.mem_cons_self _ _)
    have hcs : '.' ∉ cs := fun hh => h (List.mem_cons_of_mem _ hh)
    rw [List.cons_append, splitDots, if_neg hc, ih hcs t]

theorem splitDots_head : ∀ (t : List Char),
    ∃ ps, splitDots t = t.takeWhile (fun c => c != '.') :: ps := by
  intro t
  induction t with
  | nil => exact ⟨[], rfl⟩
  | cons c cs ih =>
    by_cases hc : c = '.'
    · refine ⟨splitDots cs, ?_⟩
      rw [splitDots, if_pos hc]
      have ht : (c :: cs).takeWhile (fun c => c != '.') = [] := by
        simp [List.takeWhile_cons, hc]
      rw [ht]
    · rcases ih with ⟨ps, hps⟩
      refine ⟨ps, ?_⟩
      rw [splitDots, if_neg hc, hps]
      have ht : (c :: cs).takeWhile (fun c => c != '.') =
          c :: cs.takeWhile (fun c => c != '.') := by
        simp [List.takeWhile_cons, hc]
      rw [ht]

theorem queryDeps_depth {cat : Catalog} {s u : String} {d : Nat} {r : Desc}
    (h : r ∈ queryDeps cat s u d) : r.depth = d := by
  have h2 := mem_dedupBy h
  rcases List.mem_map.mp h2 with ⟨e, _, he⟩
  rw [← he]

theorem queryDeps_excludes_self {cat : Catalog} {s u : String} {d : Nat} {r : Desc}
    (h : r ∈ queryDeps cat s u d) :
    ¬(lowerStr r.schema = lowerStr s ∧ lowerStr r.name = lowerStr u) := by
  have h2 := mem_dedupBy h
  rcases List.mem_map.mp h2 with ⟨e, he2, he⟩
  rcases List.mem_filter.mp he2 with ⟨_, hp⟩
  have hn : notSelf s u e = true := by
    rcases Bool.and_eq_true_iff.mp hp with ⟨_, h2⟩
    exact h2
  rw [← he]
  simp only [notSelf, Bool.not_eq_true', Bool.and_eq_false_iff, beq_eq_false_iff_ne,
    ne_eq] at hn
  intro hcon
  rcases hn with h1 | h1
  · exact h1 hcon.1
  · exact h1 hcon.2

theorem queryDeps_lower_congr {cat : Catalog} {s s' u u' : String}
    (hs : lowerStr s = lowerStr s') (hu : lowerStr u = lowerStr u') (d : Nat) :
    queryDeps cat s u d = queryDeps cat s' u' d := by
  unfold queryDeps matchesParent notSelf
  rw [hs, hu]

theorem afterDrops_cases (ex : String → Bool) (t1 : List Stmt) (plan : List Desc)
    (sql : String) :
    (ex (render (Stmt.raw sql)) = false ∧
      afterDrops ex t1 plan sql =
        ⟨t1 ++ [Stmt.raw sql], Outcome.execFailed (Stmt.raw sql)⟩) ∨
    (ex (render (Stmt.raw sql)) = true ∧
      afterDrops ex t1 plan sql =
        ⟨t1 ++ Stmt.raw sql :: (sortAsc plan).flatMap pairOf, Outcome.ok⟩ ∧
      execAll ex ((sortAsc plan).flatMap pairOf) = ((sortAsc plan).flatMap pairOf, none)) ∨
    (ex (render (Stmt.raw sql)) = true ∧
      ∃ t2 st, execAll ex ((sortAsc plan).flatMap pairOf) = (t2, some st) ∧
        afterDrops ex t1 plan sql = ⟨t1 ++ Stmt.raw sql :: t2, Outcome.execFailed st⟩) := by
  unfold afterDrops
  by_cases h2 : ex (render (Stmt.raw sql)) = true
  · rw [if_pos h2]
    rcases h3 : execAll ex ((sortAsc plan).flatMap pairOf) with ⟨t2, f2⟩
    cases f2 with
    | none =>
      right; left
      have ht := execAll_none h3
      subst ht
      exact ⟨h2, rfl, rfl⟩
    | some st =>
      right; right
      exact ⟨h2, t2, st, rfl, rfl⟩
  · rw [if_neg h2]
    left
    exact ⟨by simpa using h2, rfl⟩

theorem phaseRun_cases (ex : String → Bool) (plan : List Desc) (sql : String) :
    (execAll ex (plan.map dropOf) = (plan.map dropOf, none) ∧
      phaseRun ex plan sql = afterDrops ex (plan.map dropOf) plan sql) ∨
    (∃ t1 st, execAll ex (plan.map dropOf) = (t1, some st) ∧
      phaseRun ex plan sql = ⟨t1, Outcome.execFailed st⟩) := by
  unfold phaseRun
  rcases h1 : execAll ex (plan.map dropOf) with ⟨t1, f1⟩
  cases f1 with
  | none =>
    left
    have ht := execAll_none h1
    subst ht
    exact ⟨rfl, rfl⟩
  | some st =>
    right
    exact ⟨t1, st, rfl, rfl⟩

theorem drop_execute_recreate_cases (cat : Catalog) (ex : String → Bool)
    (table sql : String) :
    (view_deps cat table 10 = Except.error () ∧
      drop_execute_recreate cat ex table sql = ⟨[], Outcome.indexError⟩) ∨
    (∃ items, view_deps cat table 10 = Except.ok items ∧
      drop_execute_recreate cat ex table sql = runFromItems ex items sql) := by
  unfold drop_execute_recreate
  rcases hv : view_deps cat table 10 with e | items
  · exact Or.inl ⟨rfl, rfl⟩
  · exact Or.inr ⟨items, rfl, rfl⟩

theorem afterDrops_ok_trace {ex : String → Bool} {t1 : List Stmt} {plan : List Desc}
    {sql : String} (h : (afterDrops ex t1 plan sql).outcome = Outcome.ok) :
    (afterDrops ex t1 plan sql).trace =
      t1 ++ Stmt.raw sql :: (sortAsc plan).flatMap pairOf := by
  rcases afterDrops_cases ex t1 plan sql with ⟨h2, had⟩ | ⟨h2, had, h3⟩ |
    ⟨h2, t2, s0, h3, had⟩
  · rw [had] at h; simp at h
  · rw [had]
  · rw [had] at h; simp at h

theorem phaseRun_ok_trace {ex : String → Bool} {plan : List Desc} {sql : String}
    (h : (phaseRun ex plan sql).outcome = Outcome.ok) :
    (phaseRun ex plan sql).trace =
      plan.map dropOf ++ Stmt.raw sql :: (sortAsc plan).flatMap pairOf := by
  rcases phaseRun_cases ex plan sql with ⟨h1, hpr⟩ | ⟨t1, s0, h1, hpr⟩
  · rw [hpr] at h ⊢
    exact afterDrops_ok_trace h
  · rw [hpr] at h; simp at h

theorem runFromItems_ok_trace {ex : String → Bool} {items : List Item} {sql : String}
    (h : (runFromItems ex items sql).outcome = Outcome.ok) :
    (runFromItems ex items sql).trace =
      (canonicalize (rowsOf items)).map dropOf ++
        Stmt.raw sql :: (sortAsc (canonicalize (rowsOf items))).flatMap pairOf := by
  unfold runFromItems at h ⊢
  by_cases hc : items.contains Item.tyErr = true
  · rw [if_pos hc] at h; simp at h
  · rw [if_neg hc] at h ⊢
    by_cases he : (rowsOf items).isEmpty = true
    · rw [if_pos he] at h; simp at h
    · rw [if_neg he] at h ⊢
      exact phaseRun_ok_trace h

theorem run_ok_trace {cat : Catalog} {ex : String → Bool} {table sql : String}
    (h : (drop_execute_recreate cat ex table sql).outcome = Outcome.ok) :
    (drop_execute_recreate cat ex table sql).trace =
      (thePlan cat table).map dropOf ++
        Stmt.raw sql :: (ascPlan cat table).flatMap pairOf := by
  rcases drop_execute_recreate_cases cat ex table sql with ⟨hv, hrun⟩ | ⟨items, hv, hrun⟩
  · rw [hrun] at h; simp at h
  · rw [hrun] at h ⊢
    have hrr : resolvedRows cat table = rowsOf items := by
      unfold resolvedRows
      rw [hv]
    unfold ascPlan thePlan
    rw [hrr]
    exact runFromItems_ok_trace h

theorem afterDrops_fail_getLast {ex : String → Bool} {t1 : List Stmt} {plan : List Desc}
    {sql : String} {st : Stmt}
    (h : (afterDrops ex t1 plan sql).outcome = Outcome.execFailed st) :
    (afterDrops ex t1 plan sql).trace.getLast? = some st := by
  rcases afterDrops_cases ex t1 plan sql with ⟨h2, had⟩ | ⟨h2, had, h3⟩ |
    ⟨h2, t2, s0, h3, had⟩
  · rw [had] at h ⊢
    have hs : Stmt.raw sql = st := by simpa using h
    rw [← hs]
    simp
  · rw [had] at h; simp at h
  · rw [had] at h ⊢
    have hs : s0 = st := by simpa using h
    subst hs
    rcases execAll_some_getLast h3 with ⟨hne, hlast⟩
    show (t1 ++ Stmt.raw sql :: t2).getLast? = some s0
    rw [show t1 ++ Stmt.raw sql :: t2 = (t1 ++ [Stmt.raw sql]) ++ t2 by simp]
    rw [List.getLast?_append_of_ne_nil _ hne]
    exact hlast

theorem phaseRun_fail_getLast {ex : String → Bool} {plan : List Desc} {sql : String}
    {st : Stmt} (h : (phaseRun ex plan sql).outcome = Outcome.execFailed st) :
    (phaseRun ex plan sql).trace.getLast? = some st := by
  rcases phaseRun_cases ex plan sql with ⟨h1, hpr⟩ | ⟨t1, s0, h1, hpr⟩
  · rw [hpr] at h ⊢
    exact afterDrops_fail_getLast h
  · rw [hpr] at h ⊢
    have hs : s0 = st := by simpa using h
    subst hs
    exact (execAll_some_getLast h1).2

theorem runFromItems_fail_getLast {ex : String → Bool} {items : List Item} {sql : String}
    {st : Stmt} (h : (runFromItems ex items sql).outcome = Outcome.execFailed st) :
    (runFromItems ex items sql).trace.getLast? = some st := by
  unfold runFromItems at h ⊢
  by_cases hc : items.contains Item.tyErr = true
  · rw [if_pos hc] at h; simp at h
  · rw [if_neg hc] at h ⊢
    by_cases he : (rowsOf items).isEmpty = true
    · rw [if_pos he] at h; simp at h
    · rw [if_neg he] at h ⊢
      exact phaseRun_fail_getLast h

theorem run_fail_getLast {cat : Catalog} {ex : String → Bool} {table sql : String}
    {st : Stmt}
    (h : (drop_execute_recreate cat ex table sql).outcome = Outcome.execFailed st) :
    (drop_execute_recreate cat ex table sql).trace.getLast? = some st := by
  rcases drop_execute_recreate_cases cat ex table sql with ⟨hv, hrun⟩ | ⟨items, hv, hrun⟩
  · rw [hrun] at h; simp at h
  · rw [hrun] at h ⊢
    exact runFromItems_fail_getLast h

theorem ownerStep_no_touch {dflt s n : String} {st : Stmt} (h : touches s n st = false)
    (acc : Option String) : ownerStep dflt s n acc st = acc := by
  cases st with
  | drop a b => simp only [touches] at h; simp [ownerStep, h]
  | raw q => rfl
  | create a b c => simp only [touches] at h; simp [ownerStep, h]
  | alterOwner a b o => simp only [touches] at h; simp [ownerStep, h]

theorem foldl_ownerStep_no_touch {dflt s n : String} :
    ∀ {l : List Stmt}, (∀ st ∈ l, touches s n st = false) →
      ∀ acc, l.foldl (ownerStep dflt s n) acc = acc := by
  intro l
  induction l with
  | nil => intro _ acc; rfl
  | cons st rest ih =>
    intro h acc
    rw [List.foldl_cons, ownerStep_no_touch (h st (List.mem_cons_self _ _))]
    exact ih (fun x hx => h x (List.mem_cons_of_mem _ hx)) acc

theorem sameId_false_symm {a b : Desc} (h : sameId a b = false) : sameId b a = false := by
  simp only [sameId, Bool.and_eq_false_iff, beq_eq_false_iff_ne, ne_eq] at h ⊢
  rcases h with h1 | h1
  · exact Or.inl (fun hh => h1 hh.symm)
  · exact Or.inr (fun hh => h1 hh.symm)

theorem pairOf_no_touch {e d : Desc} (h : sameId e d = false) :
    ∀ st ∈ pairOf e, touches d.schema d.name st = false := by
  intro st hst
  rcases List.mem_cons.mp hst with h1 | h2
  · rw [h1]
    exact h
  · have h3 : st = Stmt.alterOwner e.schema e.name e.owner := by
      simpa [pairOf] using h2
    rw [h3]
    exact h

theorem flatMap_pairOf_no_touch {d : Desc} {post : List Desc}
    (h : ∀ e ∈ post, sameId e d = false) :
    ∀ st ∈ post.flatMap pairOf, touches d.schema d.name st = false := by
  intro st hst
  rcases List.mem_flatMap.mp hst with ⟨e, he, hpe⟩
  exact pairOf_no_touch (h e he) st hpe

theorem foldl_ownerStep_pair {dflt : String} (d : Desc) (acc : Option String) :
    (pairOf d).foldl (ownerStep dflt d.schema d.name) acc = some d.owner := by
  simp [pairOf, ownerStep]

theorem finalOwner_restored (dflt : String) (t1 : List Stmt) (sql : String)
    (asc : List Desc) (d : Desc) (hd : d ∈ asc)
    (hpw : asc.Pairwise (fun a b => sameId a b = false)) :
    finalOwner dflt d.schema d.name (t1 ++ Stmt.raw sql :: asc.flatMap pairOf) =
      some d.owner := by
  rcases List.append_of_mem hd with ⟨pre, post, hsplit⟩
  subst hsplit
  have hpost : ∀ e ∈ post, sameId e d = false := by
    intro e he
    have h1 := (List.pairwise_append.mp hpw).2.1
    exact sameId_false_symm (List.rel_of_pairwise_cons h1 he)
  have hfm : (pre ++ d :: post).flatMap pairOf =
      pre.flatMap pairOf ++ (pairOf d ++ post.flatMap pairOf) := by
    simp
  unfold finalOwner
  rw [hfm, List.foldl_append, List.foldl_cons, List.foldl_append, List.foldl_append,
    foldl_ownerStep_pair]
  exact foldl_ownerStep_no_touch (flatMap_pairOf_no_touch hpost) _

theorem pairOf_infix_trace {d : Desc} {asc : List Desc} (hd : d ∈ asc)
    (t1 : List Stmt) (sql : String) :
    List.IsInfix (pairOf d) (t1 ++ Stmt.raw sql :: asc.flatMap pairOf) := by
  rcases List.append_of_mem hd with ⟨pre, post, hsplit⟩
  subst hsplit
  refine ⟨t1 ++ Stmt.raw sql :: pre.flatMap pairOf, post.flatMap pairOf, ?_⟩
  simp

theorem row_mem_map_wrapYield {r : Desc} {l : List Item}
    (h : Item.row r ∈ l.map wrapYield) : Item.row r ∈ l := by
  rcases List.mem_map.mp h with ⟨x, hx, hwx⟩
  cases x with
  | row dd =>
    have hdd : dd = r := by
      simpa [wrapYield] using hwx
    rw [← hdd]
    exact hx
  | pyNone => simp [wrapYield] at hwx
  | tyErr => simp [wrapYield] at hwx

theorem row_origin {cat : Catalog} :
    ∀ (g : Nat) (s u : String) (dep : Nat) (r : Desc),
      Item.row r ∈ recurse cat s u dep g →
      (r ∈ queryDeps cat s u dep ∧ r.depth = dep) ∨
      ∃ p, Item.row p ∈ recurse cat s u dep g ∧
        r ∈ queryDeps cat p.schema p.name (p.depth + 1) ∧ r.depth = p.depth + 1 := by
  intro g
  induction g with
  | zero => intro s u dep r hr; simp [recurse] at hr
  | succ n ih =>
    cases n with
    | zero => intro s u dep r hr; simp [recurse] at hr
    | succ m =>
      intro s u dep r hr
      rw [recurse] at hr
      rcases List.mem_flatMap.mp hr with ⟨q, hq, hmem⟩
      rcases List.mem_cons.mp hmem with h1 | h2
      · left
        have hrq : r = q := by
          injection h1
        subst hrq
        exact ⟨hq, queryDeps_depth hq⟩
      · have hx : Item.row r ∈ recurse cat q.schema q.name (dep + 1) (m + 1) :=
          row_mem_map_wrapYield h2
        rcases ih q.schema q.name (dep + 1) r hx with ⟨hin, hdep⟩ | ⟨p, hp, hpin, hpdep⟩
        · right
          refine ⟨q, ?_, ?_, ?_⟩
          · rw [recurse]
            exact List.mem_flatMap.mpr ⟨q, hq, List.mem_cons_self _ _⟩
          · rw [queryDeps_depth hq]
            exact hin
          · rw [queryDeps_depth hq]
            exact hdep
        · right
          refine ⟨p, ?_, hpin, hpdep⟩
          rw [recurse]
          refine List.mem_flatMap.mpr ⟨q, hq, List.mem_cons_of_mem _ ?_⟩
          exact List.mem_map.mpr ⟨Item.row p, hp, rfl⟩

/-- Claim C1 (code bug): on the diamond catalog `V2` is discovered at
both depth 1 (via `V1`) and depth 2 (via `A ← B`), but canonicalization
keeps the depth-2 occurrence: `drop_duplicates(keep='first')` on the
descending-sorted frame keeps the LARGEST depth, while the claim — and
the code's own comment, "keeping the last instance (lowest depth)" —
promise the smallest depth. -/
theorem C1_diamond_dedup_keeps_largest_depth :
    (⟨"s", "V2", "o2", "d2", 1⟩ : Desc) ∈ resolvedRows diamondCat "s.t" ∧
    (⟨"s", "V2", "o2", "d2", 2⟩ : Desc) ∈ resolvedRows diamondCat "s.t" ∧
    canonicalize (resolvedRows diamondCat "s.t") =
      [⟨"s", "V2", "o2", "d2", 2⟩, ⟨"s", "B", "ob", "db", 1⟩,
       ⟨"s", "V1", "o1", "d1", 0⟩, ⟨"s", "A", "oa", "da", 0⟩] ∧
    (⟨"s", "V2", "o2", "d2", 1⟩ : Desc) ∉ canonicalize (resolvedRows diamondCat "s.t") :=
  ⟨by decide, by decide, by decide, by decide⟩

/-- Claim C2 (counterexample): two runs failing on the same create
statement have identical outcomes — the propagated error of that one
statement — while having successfully recreated different numbers of
objects (1 vs 2).  The escaping error therefore carries no
completed/pending split, and no report value is returned at all. -/
theorem C2_error_carries_no_split :
    (drop_execute_recreate catA failV9 "s.t" "MUT").outcome =
      (drop_execute_recreate catB failV9 "s.t" "MUT").outcome ∧
    createCount (drop_execute_recreate catA failV9 "s.t" "MUT") = 1 ∧
    createCount (drop_execute_recreate catB failV9 "s.t" "MUT") = 2 :=
  ⟨by decide, by decide, by decide⟩

/-- Claim C2 (amended): `drop_execute_recreate` returns no report; on a
statement failure the statement's own database error propagates and the
failing statement is the last one attempted — no further creates are
issued.  At the concrete input where the create of the second recreate
item fails, exactly one object has been successfully recreated. -/
theorem C2_failure_stops_at_failing_statement :
    (∀ (cat : Catalog) (ex : String → Bool) (table sql : String) (st : Stmt),
      (drop_execute_recreate cat ex table sql).outcome = Outcome.execFailed st →
      (drop_execute_recreate cat ex table sql).trace.getLast? = some st) ∧
    (drop_execute_recreate catA failV9 "s.t" "MUT").outcome =
      Outcome.execFailed (Stmt.create "s" "V9" "d9") ∧
    createCount (drop_execute_recreate catA failV9 "s.t" "MUT") = 1 ∧
    (drop_execute_recreate catA failV9 "s.t" "MUT").trace =
      [Stmt.drop "s" "V9", Stmt.drop "s" "V1", Stmt.raw "MUT",
       Stmt.create "s" "V1" "d1", Stmt.alterOwner "s" "V1" "o1",
       Stmt.create "s" "V9" "d9"] :=
  ⟨fun _ _ _ _ _ h => run_fail_getLast h, by decide, by decide, by decide⟩

theorem C2_failure_stops_at_failing_statement_witness :
    (drop_execute_recreate catA failV9 "s.t" "MUT").trace.getLast? =
      some (Stmt.create "s" "V9" "d9") :=
  C2_failure_stops_at_failing_statement.1 catA failV9 "s.t" "MUT"
    (Stmt.create "s" "V9" "d9") (by decide)

/-- Claim C3 (code bug): with `maxdepth = 2` on `target ← V1 ← V2`,
`target ← V3`, the branch through `V1` reaches the depth bound; instead
of being silently truncated, the bare `yield` yields `None`, the parent
frame's `list(a)` raises `TypeError`, and the traversal dies before
yielding the other branch's `V3` — resolution does NOT yield the
descriptors of the other branches. -/
theorem C3_truncation_raises_and_loses_other_branches :
    view_deps chainCat "s.t" 2 =
      Except.ok [Item.row ⟨"s", "V1", "o1", "d1", 0⟩, Item.tyErr] ∧
    Item.row (⟨"s", "V3", "o3", "d3", 0⟩ : Desc) ∉
      [Item.row (⟨"s", "V1", "o1", "d1", 0⟩ : Desc), Item.tyErr] :=
  ⟨rfl, by decide⟩

/-- Claim C4: on a successful run the statement trace is exactly the
drops of the canonical plan (sorted descending by depth), the caller's
SQL, then the create/alter pairs of the ascending re-sort — every DROP of
a strictly deeper descriptor precedes the shallower ones, and every
CREATE of a strictly shallower descriptor precedes the deeper ones. -/
theorem C4_drop_desc_recreate_asc (cat : Catalog) (ex : String → Bool) (table sql : String)
    (h : (drop_execute_recreate cat ex table sql).outcome = Outcome.ok) :
    (drop_execute_recreate cat ex table sql).trace =
      (thePlan cat table).map dropOf ++
        Stmt.raw sql :: (ascPlan cat table).flatMap pairOf ∧
    (thePlan cat table).Pairwise (fun a b => b.depth ≤ a.depth) ∧
    (ascPlan cat table).Pairwise (fun a b => a.depth ≤ b.depth) :=
  ⟨run_ok_trace h, canonicalize_sorted _, sortAsc_sorted _⟩

theorem C4_drop_desc_recreate_asc_witness :
    (drop_execute_recreate chainCat exOk "s.t" "MUT").trace =
      (thePlan chainCat "s.t").map dropOf ++
        Stmt.raw "MUT" :: (ascPlan chainCat "s.t").flatMap pairOf ∧
    (thePlan chainCat "s.t").Pairwise (fun a b => b.depth ≤ a.depth) ∧
    (ascPlan chainCat "s.t").Pairwise (fun a b => a.depth ≤ b.depth) :=
  C4_drop_desc_recreate_asc chainCat exOk "s.t" "MUT" (by decide)

/-- Claim C5: every descriptor yielded by the resolver carries its
discovery distance — a yielded row either is a direct dependent of the
target, annotated depth 0, or is a dependent of some yielded row `p`,
annotated `p.depth + 1`; and on the synthetic graph `target ← V1 ← V2`,
`target ← V3` resolution yields exactly `V1@0, V2@1, V3@0`. -/
theorem C5_depth_is_discovery_distance :
    view_deps chainCat "s.t" 10 =
      Except.ok [Item.row ⟨"s", "V1", "o1", "d1", 0⟩, Item.row ⟨"s", "V2", "o2", "d2", 1⟩,
        Item.row ⟨"s", "V3", "o3", "d3", 0⟩] ∧
    (∀ (cat : Catalog) (s u : String) (m : Nat) (r : Desc),
      Item.row r ∈ recurse cat s u 0 m →
      (r ∈ queryDeps cat s u 0 ∧ r.depth = 0) ∨
      ∃ p, Item.row p ∈ recurse cat s u 0 m ∧
        r ∈ queryDeps cat p.schema p.name (p.depth + 1) ∧ r.depth = p.depth + 1) :=
  ⟨rfl, fun _ s u m r h => row_origin m s u 0 r h⟩

theorem C5_depth_is_discovery_distance_witness :
    ((⟨"s", "V2", "o2", "d2", 1⟩ : Desc) ∈ queryDeps chainCat "s" "t" 0 ∧
      (⟨"s", "V2", "o2", "d2", 1⟩ : Desc).depth = 0) ∨
    ∃ p, Item.row p ∈ recurse chainCat "s" "t" 0 10 ∧
      (⟨"s", "V2", "o2", "d2", 1⟩ : Desc) ∈ queryDeps chainCat p.schema p.name (p.depth + 1) ∧
      (⟨"s", "V2", "o2", "d2", 1⟩ : Desc).depth = p.depth + 1 :=
  C5_depth_is_discovery_distance.2 chainCat "s" "t" 10 ⟨"s", "V2", "o2", "d2", 1⟩ (by decide)

/-- Claim C6 (counterexample): with `maxdepth = 1` on the synthetic graph
the resolver yields only the `None` of the bare `yield`: the direct
dependents `V1` and `V3` are NOT discovered, contrary to the claim that
the depth bound stops only the expansion and not the direct-dependents
query. -/
theorem C6_maxdepth1_counterexample :
    view_deps chainCat "s.t" 1 = Except.ok [Item.pyNone] ∧
    Item.row (⟨"s", "V1", "o1", "d1", 0⟩ : Desc) ∉ ([Item.pyNone] : List Item) :=
  ⟨rfl, by decide⟩

/-- Claim C6 (amended): the guard `depth+1 < maxdepth` is evaluated at
the top of `recurse`, before the direct-dependents query, so with
`maxdepth = 1` no catalog is ever queried: for every catalog and every
dot-qualified table the whole result is the single yielded `None`. -/
theorem C6_maxdepth1_no_discovery (cat : Catalog) (s rest : List Char) (hs : '.' ∉ s) :
    view_deps cat (String.mk (s ++ '.' :: rest)) 1 = Except.ok [Item.pyNone] := by
  unfold view_deps
  have hd : (String.mk (s ++ '.' :: rest)).data = s ++ '.' :: rest := rfl
  rw [hd, splitDots_append s hs rest]
  obtain ⟨ps, hps⟩ := splitDots_head rest
  rw [hps]
  rfl

theorem C6_maxdepth1_no_discovery_witness :
    view_deps [] (String.mk (['a'] ++ '.' :: ['b'])) 1 = Except.ok [Item.pyNone] :=
  C6_maxdepth1_no_discovery [] ['a'] ['b'] (by decide)

/-- Claim C7: on a successful run each plan row's create statement — in
which the stored definition appears verbatim — is immediately followed by
its ownership-restoration statement naming the stored owner, and after
the run the object's owner equals the stored owner for every session
default owner.  (The pairwise-distinct-identity hypothesis rules out the
model-only situation of two plan rows for one object, whose second
CREATE would fail on a real database.) -/
theorem C7_owner_restoration (cat : Catalog) (ex : String → Bool) (table sql dflt : String)
    (hok : (drop_execute_recreate cat ex table sql).outcome = Outcome.ok)
    (hdist : (ascPlan cat table).Pairwise (fun a b => sameId a b = false)) :
    ∀ d ∈ ascPlan cat table,
      List.IsInfix [Stmt.create d.schema d.name d.definition,
          Stmt.alterOwner d.schema d.name d.owner]
        (drop_execute_recreate cat ex table sql).trace ∧
      finalOwner dflt d.schema d.name (drop_execute_recreate cat ex table sql).trace =
        some d.owner ∧
      ∃ pre post, render (Stmt.create d.schema d.name d.definition) =
        pre ++ d.definition ++ post := by
  intro d hd
  rw [run_ok_trace hok]
  refine ⟨pairOf_infix_trace hd _ sql, finalOwner_restored dflt _ sql _ d hd hdist, ?_⟩
  exact ⟨"\n      CREATE VIEW " ++ d.schema ++ "." ++ d.name ++ " AS\n       ",
    " \n    ", rfl⟩

theorem C7_owner_restoration_witness :
    List.IsInfix [Stmt.create "s" "V1" "d1", Stmt.alterOwner "s" "V1" "o1"]
      (drop_execute_recreate chainCat exOk "s.t" "MUT").trace ∧
    finalOwner "session" "s" "V1" (drop_execute_recreate chainCat exOk "s.t" "MUT").trace =
      some "o1" ∧
    ∃ pre post, render (Stmt.create "s" "V1" "d1") = pre ++ "d1" ++ post :=
  C7_owner_restoration chainCat exOk "s.t" "MUT" "session" (by decide) (by decide)
    ⟨"s", "V1", "o1", "d1", 0⟩ (by decide)

/-- Claim C8 (counterexample): the orchestrator's deduplication is exact
(case-sensitive) equality on schema, name, owner and definition: two
descriptors whose schema and name differ only in letter case are both
kept, not merged into one identity. -/
theorem C8_case_dedup_counterexample :
    canonicalize [⟨"S", "V", "o", "d", 0⟩, ⟨"s", "v", "o", "d", 1⟩] =
      [⟨"s", "v", "o", "d", 1⟩, ⟨"S", "V", "o", "d", 0⟩] := by decide

/-- Claim C8 (amended): identity comparison is case-insensitive inside
the resolver's catalog query (both the parent lookup and the
self-exclusion go through `lower()`), but the orchestrator's
deduplication compares schema, name, owner and definition by exact
case-sensitive equality, so case-variant duplicates survive it. -/
theorem C8_identity_case_rules :
    (∀ (cat : Catalog) (s s' u u' : String), lowerStr s = lowerStr s' →
      lowerStr u = lowerStr u' → ∀ dep, queryDeps cat s u dep = queryDeps cat s' u' dep) ∧
    (∀ (cat : Catalog) (s u : String) (dep : Nat) (r : Desc), r ∈ queryDeps cat s u dep →
      ¬(lowerStr r.schema = lowerStr s ∧ lowerStr r.name = lowerStr u)) ∧
    (canonicalize [⟨"S", "V", "o", "d", 0⟩, ⟨"s", "v", "o", "d", 1⟩]).length = 2 :=
  ⟨fun _ _ _ _ _ hs hu dep => queryDeps_lower_congr hs hu dep,
   fun _ _ _ _ _ h => queryDeps_excludes_self h, by decide⟩

theorem C8_identity_case_rules_witness :
    queryDeps chainCat "S" "T" 0 = queryDeps chainCat "s" "t" 0 ∧
    ¬(lowerStr "s" = lowerStr "s" ∧ lowerStr "V1" = lowerStr "t") :=
  ⟨C8_identity_case_rules.1 chainCat "S" "s" "T" "t" (by decide) (by decide) 0,
   C8_identity_case_rules.2.1 chainCat "s" "t" 0 ⟨"s", "V1", "o1", "d1", 0⟩ (by decide)⟩

/-- Claim C9: when resolution yields no dependent rows, assigning the
five column names to the empty DataFrame raises before anything is
executed: the run has an empty statement trace — no DROP was issued and
the caller's mutation SQL never ran. -/
theorem C9_zero_deps_never_mutates (cat : Catalog) (ex : String → Bool) (table sql : String)
    (h : view_deps cat table 10 = Except.ok []) :
    drop_execute_recreate cat ex table sql = ⟨[], Outcome.columnsError⟩ := by
  rcases drop_execute_recreate_cases cat ex table sql with ⟨hv, hrun⟩ | ⟨items, hv, hrun⟩
  · rw [h] at hv
    exact absurd hv (by simp)
  · rw [h] at hv
    injection hv with hi
    rw [hrun, ← hi]
    rfl

theorem C9_zero_deps_never_mutates_witness :
    drop_execute_recreate [] exOk "a.b" "MUT" = ⟨[], Outcome.columnsError⟩ :=
  C9_zero_deps_never_mutates [] exOk "a.b" "MUT" (by rfl)

/-- Claim C10: `view_deps` requires a dot-qualified name.  With no `'.'`
in the table name the part-`[1]` index raises for every catalog and every
depth bound — no catalog query is issued; with at least one `'.'` the
schema used is the text before the first dot and the relation name the
text between the first and the second dot. -/
theorem C10_dot_qualified_name :
    (∀ (table : String), '.' ∉ table.data →
      ∀ (cat : Catalog) (m : Nat), view_deps cat table m = Except.error ()) ∧
    (∀ (table : String) (s rest : List Char), table.data = s ++ '.' :: rest → '.' ∉ s →
      ∀ (cat : Catalog) (m : Nat),
        view_deps cat table m = Except.ok (cutAtErr (recurse cat (String.mk s)
          (String.mk (rest.takeWhile (fun c => c != '.'))) 0 m))) := by
  constructor
  · intro table h cat m
    unfold view_deps
    rw [splitDots_no_dot h]
  · intro table s rest ht hs cat m
    unfold view_deps
    rw [ht, splitDots_append s hs rest]
    obtain ⟨ps, hps⟩ := splitDots_head rest
    rw [hps]

theorem C10_dot_qualified_name_witness :
    view_deps [] "ab" 10 = Except.error () ∧
    view_deps [] "a.b.c" 10 = Except.ok (cutAtErr (recurse [] (String.mk ['a'])
      (String.mk (['b', '.', 'c'].takeWhile (fun c => c != '.'))) 0 10)) :=
  ⟨C10_dot_qualified_name.1 "ab" (by decide) [] 10,
   C10_dot_qualified_name.2 "a.b.c" ['a'] ['b', '.', 'c'] (by decide) (by decide) [] 10⟩

end ViewDep
